import Mathlib

/-!
Verification of `scripts/relgen.py` (release-note generator).

The script is modelled shallowly: file contents and service responses are
`List Char`, the external collaborators (git, the Gemini service, the
filesystem writes) are parameters of the modelled functions, and
`sys.exit(1)` paths are explicit constructors.  Python's regular
expressions are replaced by executable Lean scanners with the same
observable behaviour on the concrete patterns the script uses.
-/

namespace Relgen

/-- ASCII decimal digit, the characters matched by the pattern class
`\d` in the versionCode regex (restricted to ASCII). -/
def isDigitChar (c : Char) : Bool :=
  '0' ≤ c && c ≤ '9'

/-- ASCII whitespace, the characters matched by the pattern class `\s`
(restricted to ASCII): space, tab, newline, carriage return, vertical
tab, form feed. -/
def isSpaceChar (c : Char) : Bool :=
  c = ' ' || c = '\t' || c = '\n' || c = '\r' || c = '\x0b' || c = '\x0c'

/-- ASCII word character, the class `\w` used to decide the word
boundary `\b` (restricted to ASCII): letters, digits, underscore. -/
def isWordChar (c : Char) : Bool :=
  ('a' ≤ c && c ≤ 'z') || ('A' ≤ c && c ≤ 'Z') || isDigitChar c || c = '_'

/-- `startsWith pat l` : `pat` is a prefix of `l`. -/
def startsWith : List Char → List Char → Bool
  | [], _ => true
  | _ :: _, [] => false
  | p :: ps, c :: cs => p = c && startsWith ps cs

/-- Numeric value of a decimal digit string, as computed by Python's
`int` on the captured group. -/
def digitsToNat (ds : List Char) : Nat :=
  ds.foldl (fun acc c => acc * 10 + (c.toNat - 48)) 0

/-- Decimal representation of a natural number, as produced by Python's
`str` on the incremented value. -/
def natDigits (n : Nat) : List Char :=
  Nat.toDigits 10 n

/-- The literal `versionCode` searched for by the stamper's pattern. -/
def versionCodeChars : List Char :=
  ['v', 'e', 'r', 's', 'i', 'o', 'n', 'C', 'o', 'd', 'e']

/-- Split off a leading `=` if present; models the optional group
`(?:=)?` of the versionCode pattern. -/
def splitEq : List Char → List Char × List Char
  | [] => ([], [])
  | c :: t => if c = '=' then ([c], t) else ([], c :: t)

/-- Match the tail of the versionCode pattern, `\s+(?:=)?\s*(\d+)`,
at the head of `l`.  On success returns
(rest of capture group 1, the digit run of group 2, the remainder).
The three character classes are disjoint, so the backtracking regex
matches exactly the maximal runs taken here. -/
def matchTail (l : List Char) : Option (List Char × List Char × List Char) :=
  let ws1 := l.takeWhile isSpaceChar
  let r1 := l.dropWhile isSpaceChar
  if ws1 = [] then none
  else
    let eqr := splitEq r1
    let ws2 := eqr.2.takeWhile isSpaceChar
    let r3 := eqr.2.dropWhile isSpaceChar
    let ds := r3.takeWhile isDigitChar
    let rest := r3.dropWhile isDigitChar
    if ds = [] then none
    else some (ws1 ++ eqr.1 ++ ws2, ds, rest)

/-- Try to match the whole pattern `(\bversionCode\s+(?:=)?\s*)(\d+)`
at the head of `l`, where `prevIsWord` says whether the character just
before `l` is a word character (deciding the `\b` boundary).  On success
returns (group 1, group 2 = the digit run, the remainder). -/
def tryMatch (prevIsWord : Bool) (l : List Char) : Option (List Char × List Char × List Char) :=
  if prevIsWord then none
  else if startsWith versionCodeChars l then
    match matchTail (l.drop versionCodeChars.length) with
    | none => none
    | some (g1t, ds, rest) => some (versionCodeChars ++ g1t, ds, rest)
  else none

/-- Leftmost search for the versionCode pattern, as `re.search` does:
try every start position from the left, tracking the previous character
for the word boundary.  On success returns
(text before the match, group 1, group 2, text after the match). -/
def findMatch : Bool → List Char → Option (List Char × List Char × List Char × List Char)
  | prev, [] =>
    match tryMatch prev [] with
    | some (g1, ds, rest) => some ([], g1, ds, rest)
    | none => none
  | prev, c :: cs =>
    match tryMatch prev (c :: cs) with
    | some (g1, ds, rest) => some ([], g1, ds, rest)
    | none =>
      (findMatch (isWordChar c) cs).map fun x => (c :: x.1, x.2.1, x.2.2.1, x.2.2.2)

/-- Word-character flag of the character just before position `i` of
`l`, with `prev` the flag before position 0. -/
def prevWord (prev : Bool) (l : List Char) : Nat → Bool
  | 0 => prev
  | i + 1 =>
    match l.drop i with
    | c :: _ => isWordChar c
    | [] => prev

/-- Outcome of `increment_version_code`: `fatal c` models `sys.exit(1)`
with the file content on disk still equal to `c`; `ok c v` models a
successful rewrite leaving content `c` and returning the new code `v`. -/
inductive StampResult where
  | fatal (content : List Char)
  | ok (content : List Char) (newCode : Nat)
deriving DecidableEq

/-- Model of `increment_version_code` from `relgen.py` (lines 62-97):
if the file is missing, exit before reading; search for the first match
of `(\bversionCode\s+(?:=)?\s*)(\d+)`; if none, exit with the file
untouched; otherwise replace the matched digit run by the incremented
value (re.sub with count=1 on the same pattern) and return the new
code. -/
def increment_version_code (fileExists : Bool) (content : List Char) : StampResult :=
  if fileExists then
    match findMatch false content with
    | none => StampResult.fatal content
    | some (before, g1, ds, rest) =>
      StampResult.ok (before ++ g1 ++ natDigits (digitsToNat ds + 1) ++ rest)
        (digitsToNat ds + 1)
  else StampResult.fatal content

/-- Python `str.strip()` (restricted to ASCII whitespace): drop leading
and trailing whitespace. -/
def stripChars (l : List Char) : List Char :=
  ((l.dropWhile isSpaceChar).reverse.dropWhile isSpaceChar).reverse

/-- First occurrence of `pat` in `s`: returns (text before the
occurrence, text after it) for the leftmost occurrence, or `none`. -/
def splitFirst (pat : List Char) : List Char → Option (List Char × List Char)
  | [] => if startsWith pat [] then some ([], []) else none
  | c :: cs =>
    if startsWith pat (c :: cs) then some ([], (c :: cs).drop pat.length)
    else (splitFirst pat cs).map fun p => (c :: p.1, p.2)

/-- Model of one language extraction
`re.search(open + wildcard-nongreedy + close, text, re.DOTALL)` from
`generate_and_translate_notes`: content between the first open tag and
the first close tag after it.  For these tag strings (which cannot
overlap each other) this is exactly the leftmost non-greedy regex
match. -/
def extractTag (openTag closeTag s : List Char) : Option (List Char) :=
  match splitFirst openTag s with
  | none => none
  | some (_, rest) =>
    match splitFirst closeTag rest with
    | none => none
    | some (content, _) => some content

def enOpenTag : List Char := ['<', 'e', 'n', '-', 'U', 'S', '>']
def enCloseTag : List Char := ['<', '/', 'e', 'n', '-', 'U', 'S', '>']
def arOpenTag : List Char := ['<', 'a', 'r', '>']
def arCloseTag : List Char := ['<', '/', 'a', 'r', '>']
def trOpenTag : List Char := ['<', 't', 'r', '-', 'T', 'R', '>']
def trCloseTag : List Char := ['<', '/', 't', 'r', '-', 'T', 'R', '>']

/-- The `notes` dictionary of `generate_and_translate_notes`: one
optional entry per language key. -/
structure Bundle where
  en : Option (List Char)
  ar : Option (List Char)
  tr : Option (List Char)
deriving DecidableEq

/-- The empty dictionary `{}`. -/
def emptyBundle : Bundle := ⟨none, none, none⟩

/-- Result of the parsing part of `generate_and_translate_notes`: the
bundle plus which per-language parse warnings were printed. -/
structure ParseOutcome where
  bundle : Bundle
  warnedEn : Bool
  warnedAr : Bool
  warnedTr : Bool
deriving DecidableEq

/-- Model of `generate_and_translate_notes` (`relgen.py` lines 170-214)
from the point where the raw service response is in hand: an empty
response yields `{}`; otherwise each language is extracted independently
by its tag pair and stripped, a missing pair producing a warning instead
of an entry; finally, a missing or empty English entry discards the
whole bundle and yields `{}`. -/
def generate_and_translate_notes (fullResponse : List Char) : ParseOutcome :=
  if fullResponse = [] then ⟨emptyBundle, false, false, false⟩
  else
    match (extractTag enOpenTag enCloseTag fullResponse).map stripChars with
    | none =>
      ⟨emptyBundle, true, (extractTag arOpenTag arCloseTag fullResponse).isNone,
        (extractTag trOpenTag trCloseTag fullResponse).isNone⟩
    | some e =>
      if e = [] then
        ⟨emptyBundle, false, (extractTag arOpenTag arCloseTag fullResponse).isNone,
          (extractTag trOpenTag trCloseTag fullResponse).isNone⟩
      else
        ⟨⟨some e, (extractTag arOpenTag arCloseTag fullResponse).map stripChars,
            (extractTag trOpenTag trCloseTag fullResponse).map stripChars⟩,
          false, (extractTag arOpenTag arCloseTag fullResponse).isNone,
          (extractTag trOpenTag trCloseTag fullResponse).isNone⟩

/-- How reading `response.text` behaves: a usable string, a
`ValueError` (blocked content), or an `AttributeError`. -/
inductive TextAccess where
  | ok (s : List Char)
  | raisesValue
  | raisesAttr
deriving DecidableEq

/-- A content part of the first candidate; `text = none` models a part
without a `text` attribute. -/
structure GPart where
  text : Option (List Char)
deriving DecidableEq

/-- A response candidate; `content = none` models a falsy `content`
attribute, otherwise its list of parts. -/
structure GCandidate where
  content : Option (List GPart)
deriving DecidableEq

/-- The service response object seen by `generate_content_with_gemini`. -/
structure GeminiResponse where
  textAccess : TextAccess
  candidates : List GCandidate
deriving DecidableEq

/-- What the one `model.generate_content` call produces: a response
object, or an exception caught by the surrounding handler. -/
inductive ServiceResult where
  | response (r : GeminiResponse)
  | serviceError
deriving DecidableEq

/-- `"".join(part.text for part in parts if hasattr(part, 'text'))`. -/
def joinParts (ps : List GPart) : List Char :=
  ps.foldr (fun p acc => p.text.getD [] ++ acc) []

/-- The `text_content` value computed by `generate_content_with_gemini`
(`relgen.py` lines 106-118): prefer a truthy `response.text`, stripped;
on a falsy value or an access exception fall back to the first
candidate's parts when candidates, content and parts are all truthy. -/
def extract_text_content (r : GeminiResponse) : Option (List Char) :=
  let t1 : Option (List Char) :=
    match r.textAccess with
    | TextAccess.ok s => if s = [] then none else some (stripChars s)
    | TextAccess.raisesValue => none
    | TextAccess.raisesAttr => none
  match t1 with
  | some t => some t
  | none =>
    match r.candidates with
    | [] => none
    | c :: _ =>
      match c.content with
      | none => none
      | some parts => if parts = [] then none else some (stripChars (joinParts parts))

/-- Model of `generate_content_with_gemini` (`relgen.py` lines 99-136):
a caught service exception returns `""`; otherwise the extracted
`text_content` is returned, or `""` (after logging diagnostics) when
none could be extracted.  The model is a total function: no input
raises. -/
def generate_content_with_gemini (sr : ServiceResult) : List Char :=
  match sr with
  | ServiceResult.serviceError => []
  | ServiceResult.response r =>
    match extract_text_content r with
    | none => []
    | some t => t

/-- Split a character list on a separator, as Python `str.split` with an
explicit separator: `splitOnChar sep [] = [[]]`. -/
def splitOnChar (sep : Char) : List Char → List (List Char)
  | [] => [[]]
  | c :: cs =>
    let r := splitOnChar sep cs
    if c = sep then [] :: r
    else
      match r with
      | [] => [[c]]
      | h :: t => (c :: h) :: t

/-- What the `subprocess.run` of `git log` produces. -/
inductive GitResult where
  | toolMissing
  | cmdFailed
  | output (stdout : List Char)
deriving DecidableEq

/-- Result of `get_last_commits`: `outcome = none` models `sys.exit(1)`;
`invokedGit` records whether the external command was run; `loggedError`
records whether a message was printed to stderr. -/
structure CommitsRun where
  outcome : Option (List (List Char))
  invokedGit : Bool
  loggedError : Bool
deriving DecidableEq

/-- Model of `get_last_commits` (`relgen.py` lines 29-59): a
non-positive `n` returns `[]` with an error logged and no git call;
otherwise git is invoked and its stdout is stripped, split on newlines
and filtered of blank lines, an all-blank result returning `[]` with a
warning; a missing tool or failing command exits the process. -/
def get_last_commits (n : Int) (git : GitResult) : CommitsRun :=
  if n ≤ 0 then ⟨some [], false, true⟩
  else
    match git with
    | GitResult.toolMissing => ⟨none, true, true⟩
    | GitResult.cmdFailed => ⟨none, true, true⟩
    | GitResult.output out =>
      let commits := (splitOnChar '\n' (stripChars out)).filter fun c => stripChars c ≠ []
      if commits = [] then ⟨some [], true, true⟩ else ⟨some commits, true, false⟩

/-- `notes.get(lang, en_note if lang not in notes else errorText)` from
`main` (`relgen.py` lines 265-266): the stored value when the key is
present (even when it is the empty string), the English note when the
key is absent. -/
def fallbackNote (slot : Option (List Char)) (enNote : List Char) : List Char :=
  match slot with
  | some t => t
  | none => enNote

/-- The fallback-warning condition of `main` (lines 269-272):
`note == en_note and lang not in notes and 'en' in notes`. -/
def fallbackWarn (slot : Option (List Char)) (note enNote : List Char)
    (enPresent : Bool) : Bool :=
  (note == enNote) && slot.isNone && enPresent

/-- `'\n'.join(output_string_parts)` from `main` (lines 275-280). -/
def serializeNotes (e a t : List Char) : List Char :=
  List.intercalate ['\n']
    [enOpenTag, e, enCloseTag, arOpenTag, a, arCloseTag, trOpenTag, t, trCloseTag]

/-- External state a run of `main` depends on, from the point after the
credential, client configuration and the interactive commit-count prompt
(all of which precede any effect modelled here): the fetched commit
list, the gradle file, the raw text the generation client returned,
whether the output-file write succeeds, and the output file's prior
state. -/
structure Env where
  commits : List (List Char)
  gradleExists : Bool
  gradleContent : List Char
  rawResponse : List Char
  writeOk : Bool
  prevOutput : Option (List Char)

/-- Observable outcome of a run of `main`: the exit code, the gradle
file content on disk, the output file state, what (if anything) was
printed as the final notes, and the two fallback warnings. -/
structure RunResult where
  exitCode : Nat
  gradleContent : List Char
  outputFile : Option (List Char)
  printedNotes : Option (List Char)
  warnedArFallback : Bool
  warnedTrFallback : Bool
deriving DecidableEq

/-- Model of `main` (`relgen.py` lines 237-293) from the commit fetch
on: exit 1 on an empty commit list; stamp the version file (exit 1 on
its failure modes, every later step seeing the mutated file); parse the
service response; exit 1 when the mandatory English note is missing or
empty; apply the per-language fallback; serialize; attempt the output
write (a failure leaves the previous file state and does not abort);
print the notes and exit 0. -/
def mainRun (env : Env) : RunResult :=
  if env.commits = [] then
    ⟨1, env.gradleContent, env.prevOutput, none, false, false⟩
  else
    match increment_version_code env.gradleExists env.gradleContent with
    | StampResult.fatal c => ⟨1, c, env.prevOutput, none, false, false⟩
    | StampResult.ok newGradle _ =>
      let notes := (generate_and_translate_notes env.rawResponse).bundle
      match notes.en with
      | none => ⟨1, newGradle, env.prevOutput, none, false, false⟩
      | some e =>
        if e = [] then ⟨1, newGradle, env.prevOutput, none, false, false⟩
        else
          let arNote := fallbackNote notes.ar e
          let trNote := fallbackNote notes.tr e
          let warnAr := fallbackWarn notes.ar arNote e notes.en.isSome
          let warnTr := fallbackWarn notes.tr trNote e notes.en.isSome
          let finalStr := serializeNotes e arNote trNote
          let out := if env.writeOk then some finalStr else env.prevOutput
          ⟨0, newGradle, out, some finalStr, warnAr, warnTr⟩

/-! ### Facts about the pattern scanner -/

theorem startsWith_append (p l : List Char) (h : startsWith p l = true) :
    l = p ++ l.drop p.length := by
  induction p generalizing l with
  | nil => simp
  | cons x xs ih =>
    cases l with
    | nil => simp [startsWith] at h
    | cons c cs =>
      simp only [startsWith, Bool.and_eq_true, decide_eq_true_eq] at h
      obtain ⟨rfl, h2⟩ := h
      simpa using ih cs h2

theorem all_takeWhile (p : Char → Bool) (l : List Char) :
    (l.takeWhile p).all p = true := by
  induction l with
  | nil => rfl
  | cons c cs ih =>
    by_cases h : p c = true
    · simp [List.takeWhile, h, ih]
    · simp [List.takeWhile, h]

theorem splitEq_append (r : List Char) : (splitEq r).1 ++ (splitEq r).2 = r := by
  cases r with
  | nil => rfl
  | cons c t =>
    by_cases h : c = '='
    · simp [splitEq, h]
    · simp [splitEq, h]

theorem matchTail_some (l g1t ds rest : List Char)
    (h : matchTail l = some (g1t, ds, rest)) :
    l = g1t ++ ds ++ rest ∧ ds ≠ [] ∧ ds.all isDigitChar = true := by
  unfold matchTail at h
  by_cases h1 : l.takeWhile isSpaceChar = []
  · simp [h1] at h
  · simp only [h1, if_false] at h
    by_cases h2 : ((splitEq (l.dropWhile isSpaceChar)).2.dropWhile isSpaceChar).takeWhile isDigitChar = []
    · simp [h2] at h
    · simp only [h2, if_false, Option.some.injEq, Prod.mk.injEq] at h
      obtain ⟨hg, hd, hr⟩ := h
      refine ⟨?_, ?_, ?_⟩
      · subst hg hd hr
        simp only [List.append_assoc]
        rw [List.takeWhile_append_dropWhile, List.takeWhile_append_dropWhile,
          splitEq_append, List.takeWhile_append_dropWhile]
      · rw [← hd]; exact h2
      · rw [← hd]; exact all_takeWhile _ _

theorem tryMatch_some (prev : Bool) (l g1 ds rest : List Char)
    (h : tryMatch prev l = some (g1, ds, rest)) :
    l = g1 ++ ds ++ rest ∧ g1 ≠ [] ∧ ds ≠ [] ∧ ds.all isDigitChar = true := by
  unfold tryMatch at h
  by_cases hp : prev = true
  · simp [hp] at h
  · simp only [Bool.not_eq_true] at hp
    simp only [hp, Bool.false_eq_true, if_false] at h
    by_cases hs : startsWith versionCodeChars l = true
    · simp only [hs, if_true] at h
      cases hm : matchTail (l.drop versionCodeChars.length) with
      | none => rw [hm] at h; exact absurd h (by simp)
      | some x =>
        obtain ⟨g1t, ds0, rest0⟩ := x
        rw [hm] at h
        simp only [Option.some.injEq, Prod.mk.injEq] at h
        obtain ⟨hg, hd, hr⟩ := h
        obtain ⟨he, hne, hall⟩ := matchTail_some _ _ _ _ hm
        subst hg hd hr
        refine ⟨?_, by simp [versionCodeChars], hne, hall⟩
        have := startsWith_append _ _ hs
        conv_lhs => rw [this]
        rw [he]
        simp [List.append_assoc]
    · simp [hs] at h

theorem findMatch_some (l : List Char) (prev : Bool) (b g1 ds rest : List Char)
    (h : findMatch prev l = some (b, g1, ds, rest)) :
    l = b ++ g1 ++ ds ++ rest ∧ g1 ≠ [] ∧ ds ≠ [] ∧ ds.all isDigitChar = true := by
  induction l generalizing prev b with
  | nil =>
    unfold findMatch at h
    cases ht : tryMatch prev [] with
    | none => rw [ht] at h; exact absurd h (by simp)
    | some x =>
      obtain ⟨g1t, ds0, rest0⟩ := x
      rw [ht] at h
      simp only [Option.some.injEq, Prod.mk.injEq] at h
      obtain ⟨hb, hg, hd, hr⟩ := h
      obtain ⟨he, hg1, hne, hall⟩ := tryMatch_some _ _ _ _ _ ht
      subst hb hg hd hr
      exact ⟨by simpa using he, hg1, hne, hall⟩
  | cons c cs ih =>
    unfold findMatch at h
    cases ht : tryMatch prev (c :: cs) with
    | some x =>
      obtain ⟨g1t, ds0, rest0⟩ := x
      rw [ht] at h
      simp only [Option.some.injEq, Prod.mk.injEq] at h
      obtain ⟨hb, hg, hd, hr⟩ := h
      obtain ⟨he, hg1, hne, hall⟩ := tryMatch_some _ _ _ _ _ ht
      subst hb hg hd hr
      exact ⟨by simpa using he, hg1, hne, hall⟩
    | none =>
      rw [ht] at h
      rw [Option.map_eq_some'] at h
      obtain ⟨⟨b', g1', ds', rest'⟩, hfm, hx⟩ := h
      simp only [Prod.mk.injEq] at hx
      obtain ⟨hb, hg, hd, hr⟩ := hx
      subst hb hg hd hr
      obtain ⟨he, hg1, hne, hall⟩ := ih (isWordChar c) b' hfm
      refine ⟨?_, hg1, hne, hall⟩
      simp [he]

theorem findMatch_leftmost (l : List Char) (prev : Bool) (b g1 ds rest : List Char)
    (h : findMatch prev l = some (b, g1, ds, rest)) :
    ∀ i, i < b.length → tryMatch (prevWord prev l i) (l.drop i) = none := by
  induction l generalizing prev b with
  | nil =>
    intro i hi
    obtain ⟨he, -, hne, -⟩ := findMatch_some [] prev b g1 ds rest h
    have : b = [] := by
      cases b with
      | nil => rfl
      | cons x xs => simp at he
    subst this
    simp at hi
  | cons c cs ih =>
    unfold findMatch at h
    cases ht : tryMatch prev (c :: cs) with
    | some x =>
      obtain ⟨g1t, ds0, rest0⟩ := x
      rw [ht] at h
      simp only [Option.some.injEq, Prod.mk.injEq] at h
      obtain ⟨hb, -, -, -⟩ := h
      subst hb
      intro i hi
      simp at hi
    | none =>
      rw [ht] at h
      rw [Option.map_eq_some'] at h
      obtain ⟨⟨b', g1', ds', rest'⟩, hfm, hx⟩ := h
      simp only [Prod.mk.injEq] at hx
      obtain ⟨hb, hg, hd, hr⟩ := hx
      subst hb hg hd hr
      intro i hi
      cases i with
      | zero => simpa [prevWord] using ht
      | succ j =>
        simp only [List.length_cons, Nat.succ_lt_succ_iff] at hi
        have hrec := ih (isWordChar c) b' hfm j hi
        have hdrop : (c :: cs).drop (j + 1) = cs.drop j := rfl
        rw [hdrop]
        have hlen : b'.length < cs.length := by
          obtain ⟨he, hg1, -, -⟩ := findMatch_some cs (isWordChar c) b' _ _ _ hfm
          rw [he]
          simp only [List.length_append]
          have : 0 < g1'.length := List.length_pos.mpr hg1
          omega
        have hpw : prevWord prev (c :: cs) (j + 1) = prevWord (isWordChar c) cs j := by
          cases j with
          | zero => simp [prevWord]
          | succ k =>
            show (match (c :: cs).drop (k + 1) with
              | c' :: _ => isWordChar c'
              | [] => prev) = prevWord (isWordChar c) cs (k + 1)
            have hd2 : (c :: cs).drop (k + 1) = cs.drop k := rfl
            rw [hd2]
            cases hck : cs.drop k with
            | nil =>
              exfalso
              have : cs.length ≤ k := by
                have := List.drop_eq_nil_iff.mp hck
                exact this
              omega
            | cons c' t =>
              show isWordChar c' = prevWord (isWordChar c) cs (k + 1)
              simp [prevWord, hck]
        rw [hpw]
        exact hrec

/-! ### Facts about tag extraction and the parser -/

theorem splitFirst_some (pat s a b : List Char)
    (h : splitFirst pat s = some (a, b)) :
    s = a ++ pat ++ b := by
  induction s generalizing a b with
  | nil =>
    unfold splitFirst at h
    cases pat with
    | nil =>
      simp only [startsWith, if_true, Option.some.injEq, Prod.mk.injEq] at h
      obtain ⟨ha, hb⟩ := h
      simp [← ha, ← hb]
    | cons p ps => simp [startsWith] at h
  | cons c cs ih =>
    unfold splitFirst at h
    by_cases hs : startsWith pat (c :: cs) = true
    · simp only [hs, if_true, Option.some.injEq, Prod.mk.injEq] at h
      obtain ⟨ha, hb⟩ := h
      subst ha hb
      simpa using startsWith_append pat (c :: cs) hs
    · simp only [hs, Bool.false_eq_true, if_false, Option.map_eq_some'] at h
      obtain ⟨⟨a', b'⟩, hsp, hx⟩ := h
      simp only [Prod.mk.injEq] at hx
      obtain ⟨ha, hb⟩ := hx
      subst ha hb
      simpa using ih a' b' hsp

theorem splitFirst_none_append (pat x y : List Char)
    (h : splitFirst pat (x ++ y) = none) :
    splitFirst pat y = none := by
  induction x with
  | nil => simpa using h
  | cons c cs ih =>
    apply ih
    rw [List.cons_append] at h
    unfold splitFirst at h
    by_cases hs : startsWith pat (c :: (cs ++ y)) = true
    · simp [hs] at h
    · simp only [hs, Bool.false_eq_true, if_false, Option.map_eq_none'] at h
      exact h

/-- If the English entry of the returned bundle is present then it is
nonempty and the bundle records exactly the three independent
extractions. -/
theorem parse_bundle_shape (resp e : List Char)
    (h : (generate_and_translate_notes resp).bundle.en = some e) :
    e ≠ [] ∧
      (generate_and_translate_notes resp).bundle =
        ⟨(extractTag enOpenTag enCloseTag resp).map stripChars,
          (extractTag arOpenTag arCloseTag resp).map stripChars,
          (extractTag trOpenTag trCloseTag resp).map stripChars⟩ := by
  unfold generate_and_translate_notes at h ⊢
  by_cases hr : resp = []
  · rw [if_pos hr] at h
    simp [emptyBundle] at h
  · rw [if_neg hr] at h ⊢
    cases hm : (extractTag enOpenTag enCloseTag resp).map stripChars with
    | none =>
      rw [hm] at h
      simp [emptyBundle] at h
    | some e' =>
      rw [hm] at h
      by_cases he : e' = []
      · simp only [he, if_pos rfl] at h
        simp [emptyBundle] at h
      · simp only [if_neg he] at h ⊢
        have hee : e' = e := by simpa using h
        subst hee
        refine ⟨he, ?_⟩
        simp

theorem serializeNotes_eq (e a t : List Char) :
    serializeNotes e a t =
      enOpenTag ++ ['\n'] ++ e ++ ['\n'] ++ enCloseTag ++ ['\n'] ++
        arOpenTag ++ ['\n'] ++ a ++ ['\n'] ++ arCloseTag ++ ['\n'] ++
        trOpenTag ++ ['\n'] ++ t ++ ['\n'] ++ trCloseTag := by
  simp [serializeNotes, List.intercalate, List.intersperse, List.append_assoc]

/-! ### Claims -/

/-- C1: for every file content on which the versionCode pattern has a
match (decomposing the content as before ++ group1 ++ digits ++ after),
`increment_version_code` rewrites exactly the first matched digit
substring to the decimal form of its value plus 1, every other character
of the content being preserved byte-for-byte; the final clause states
that the match found is the leftmost one (no earlier position
matches). -/
theorem stamper_increments_first_match (content b g1 ds rest : List Char)
    (h : findMatch false content = some (b, g1, ds, rest)) :
    content = b ++ g1 ++ ds ++ rest ∧
      ds ≠ [] ∧ ds.all isDigitChar = true ∧
      increment_version_code true content =
        StampResult.ok (b ++ g1 ++ natDigits (digitsToNat ds + 1) ++ rest)
          (digitsToNat ds + 1) ∧
      (∀ i, i < b.length →
        tryMatch (prevWord false content i) (content.drop i) = none) := by
  obtain ⟨he, hg1, hne, hall⟩ := findMatch_some content false b g1 ds rest h
  refine ⟨he, hne, hall, ?_, findMatch_leftmost content false b g1 ds rest h⟩
  simp [increment_version_code, h]

theorem stamper_increments_first_match_spot :
    increment_version_code true ("xversionCode 1 versionCode 2".toList) =
      StampResult.ok ("xversionCode 1 versionCode 3".toList) 3 := by
  have h := (stamper_increments_first_match ("xversionCode 1 versionCode 2".toList)
      ("xversionCode 1 ".toList) ("versionCode ".toList) ['2'] [] (by decide)).2.2.2.1
  exact h.trans (by decide)

/-- C5: for every existing file whose content has no match of the
versionCode pattern, the stamper exits fatally (exit code 1, the
`fatal` outcome) with the file content unmodified: no write happens
before the failure is detected. -/
theorem stamper_no_match_fatal (content : List Char)
    (h : findMatch false content = none) :
    increment_version_code true content = StampResult.fatal content := by
  simp [increment_version_code, h]

theorem stamper_no_match_fatal_spot :
    increment_version_code true ("hello version 3".toList) =
      StampResult.fatal ("hello version 3".toList) :=
  stamper_no_match_fatal _ (by decide)

/-- C9: for every integer n le 0 and whatever git would return, the
commit reader returns the empty sequence, logs an error, and never
invokes the external git command. -/
theorem commits_nonpositive_no_git (n : Int) (git : GitResult) (h : n ≤ 0) :
    get_last_commits n git = ⟨some [], false, true⟩ := by
  simp [get_last_commits, h]

theorem commits_nonpositive_no_git_spot :
    get_last_commits (-3) (GitResult.output (['a'])) = ⟨some [], false, true⟩ :=
  commits_nonpositive_no_git (-3) _ (by decide)

/-- C6: the generation client never raises to its caller (it is a total
function in the model): a caught transport or service error returns the
empty string, and so does every response from which no text can be
extracted. -/
theorem gemini_client_never_raises :
    generate_content_with_gemini ServiceResult.serviceError = [] ∧
      ∀ r : GeminiResponse, extract_text_content r = none →
        generate_content_with_gemini (ServiceResult.response r) = [] := by
  refine ⟨rfl, fun r h => ?_⟩
  simp [generate_content_with_gemini, h]

theorem gemini_client_never_raises_spot :
    generate_content_with_gemini
      (ServiceResult.response ⟨TextAccess.raisesValue, [⟨some []⟩]⟩) = [] :=
  gemini_client_never_raises.2 ⟨TextAccess.raisesValue, [⟨some []⟩]⟩ (by decide)

/-- C4: for every raw response in which the en-US tag pair is not found,
or the extracted English segment strips to empty, the parser returns the
empty bundle, regardless of the Arabic and Turkish segments. -/
theorem parser_requires_english (resp : List Char)
    (h : extractTag enOpenTag enCloseTag resp = none ∨
      ∃ s, extractTag enOpenTag enCloseTag resp = some s ∧ stripChars s = []) :
    (generate_and_translate_notes resp).bundle = emptyBundle := by
  unfold generate_and_translate_notes
  by_cases hr : resp = []
  · simp [hr]
  · rw [if_neg hr]
    rcases h with h | ⟨s, hs, hstrip⟩
    · simp [h]
    · simp [hs, hstrip]

theorem parser_requires_english_spot :
    (generate_and_translate_notes ("<ar>x</ar><tr-TR>y</tr-TR>".toList)).bundle =
      emptyBundle :=
  parser_requires_english _ (Or.inl (by decide))

/-- C7: for every raw response with an extractable English block whose
content is nonempty after stripping and an extractable Turkish block,
but in which the ar open tag or the ar close tag does not occur at all,
the parser yields a bundle with `en` and `tr` present and `ar` absent,
and records the (non-fatal) Arabic warning: the per-language extractions
are independent. -/
theorem parser_missing_ar_independent (resp e t : List Char)
    (hen : extractTag enOpenTag enCloseTag resp = some e)
    (hene : stripChars e ≠ [])
    (htr : extractTag trOpenTag trCloseTag resp = some t)
    (har : splitFirst arOpenTag resp = none ∨ splitFirst arCloseTag resp = none) :
    (generate_and_translate_notes resp).bundle =
      ⟨some (stripChars e), none, some (stripChars t)⟩ ∧
      (generate_and_translate_notes resp).warnedAr = true := by
  have hrne : resp ≠ [] := by
    intro hr
    subst hr
    simp [extractTag, splitFirst, startsWith, enOpenTag] at hen
  have harx : extractTag arOpenTag arCloseTag resp = none := by
    rcases har with h | h
    · simp [extractTag, h]
    · cases hsp : splitFirst arOpenTag resp with
      | none => simp [extractTag, hsp]
      | some pr =>
        obtain ⟨pre, rest⟩ := pr
        have hdec := splitFirst_some _ _ _ _ hsp
        have hnone : splitFirst arCloseTag rest = none := by
          apply splitFirst_none_append arCloseTag (pre ++ arOpenTag) rest
          rw [← hdec]
          exact h
        simp [extractTag, hsp, hnone]
  unfold generate_and_translate_notes
  rw [if_neg hrne]
  simp [hen, htr, harx, hene]

theorem parser_missing_ar_independent_spot :
    (generate_and_translate_notes ("<en-US>hi</en-US><tr-TR>tk</tr-TR>".toList)).bundle =
      ⟨some ['h', 'i'], none, some ['t', 'k']⟩ :=
  (parser_missing_ar_independent ("<en-US>hi</en-US><tr-TR>tk</tr-TR>".toList)
    (['h', 'i']) (['t', 'k']) (by decide) (by decide) (by decide)
    (Or.inl (by decide))).1

/-- C3: for every bundle returned by the parser whose `en` entry is
present (hence nonempty), each language absent from the bundle is
replaced by the English text by the orchestrator's per-language
fallback, with the warning condition true, and the serialized output
carries all three language slots (the absent ones holding the nonempty
English text). -/
theorem fallback_fills_missing_languages (resp e : List Char)
    (hen : (generate_and_translate_notes resp).bundle.en = some e) :
    e ≠ [] ∧
      ((generate_and_translate_notes resp).bundle.ar = none →
        fallbackNote (generate_and_translate_notes resp).bundle.ar e = e ∧
          fallbackWarn (generate_and_translate_notes resp).bundle.ar
            (fallbackNote (generate_and_translate_notes resp).bundle.ar e) e
            (generate_and_translate_notes resp).bundle.en.isSome = true) ∧
      ((generate_and_translate_notes resp).bundle.tr = none →
        fallbackNote (generate_and_translate_notes resp).bundle.tr e = e ∧
          fallbackWarn (generate_and_translate_notes resp).bundle.tr
            (fallbackNote (generate_and_translate_notes resp).bundle.tr e) e
            (generate_and_translate_notes resp).bundle.en.isSome = true) ∧
      serializeNotes e (fallbackNote (generate_and_translate_notes resp).bundle.ar e)
          (fallbackNote (generate_and_translate_notes resp).bundle.tr e) =
        enOpenTag ++ ['\n'] ++ e ++ ['\n'] ++ enCloseTag ++ ['\n'] ++
          arOpenTag ++ ['\n'] ++
          fallbackNote (generate_and_translate_notes resp).bundle.ar e ++ ['\n'] ++
          arCloseTag ++ ['\n'] ++ trOpenTag ++ ['\n'] ++
          fallbackNote (generate_and_translate_notes resp).bundle.tr e ++ ['\n'] ++
          trCloseTag := by
  obtain ⟨hene, -⟩ := parse_bundle_shape resp e hen
  refine ⟨hene, fun har => ?_, fun htr => ?_, serializeNotes_eq _ _ _⟩
  · rw [har, hen]
    simp [fallbackNote, fallbackWarn]
  · rw [htr, hen]
    simp [fallbackNote, fallbackWarn]

theorem fallback_fills_missing_languages_spot :
    fallbackNote (generate_and_translate_notes
      ("<en-US>hi</en-US>".toList)).bundle.ar (['h', 'i']) = ['h', 'i'] :=
  ((fallback_fills_missing_languages ("<en-US>hi</en-US>".toList) (['h', 'i'])
    (by decide)).2.1 (by decide)).1

/-- C2: for every run in which the commit list is nonempty, the version
stamp succeeds (producing content g), and the generation service
returned the empty string, the process exits with code 1, the descriptor
file on disk keeps the stamped (incremented) content g, and the output
file is exactly whatever it was before the run (not created, or left
over from a previous run). -/
theorem run_empty_generation_exits_one (env : Env) (g : List Char) (v : Nat)
    (hc : env.commits ≠ [])
    (hst : increment_version_code env.gradleExists env.gradleContent = StampResult.ok g v)
    (hraw : env.rawResponse = []) :
    mainRun env = ⟨1, g, env.prevOutput, none, false, false⟩ := by
  unfold mainRun
  rw [if_neg hc, hst]
  have hparse : (generate_and_translate_notes env.rawResponse).bundle.en = none := by
    rw [hraw]
    rfl
  simp [hparse]

theorem run_empty_generation_exits_one_spot :
    mainRun ⟨[['a']], true, ("versionCode 7".toList), [], true, none⟩ =
      ⟨1, ("versionCode 8".toList), none, none, false, false⟩ :=
  run_empty_generation_exits_one _ _ 8 (by decide) (by decide) rfl

/-- C8: for every run reaching serialization with a valid bundle (the
parsed English entry present), a failing output-file write does not
abort: the run still exits with code 0, the output file keeps its prior
state, and the formatted notes are still printed to the console. -/
theorem write_failure_does_not_abort (env : Env) (g : List Char) (v : Nat) (e : List Char)
    (hc : env.commits ≠ [])
    (hst : increment_version_code env.gradleExists env.gradleContent = StampResult.ok g v)
    (hen : (generate_and_translate_notes env.rawResponse).bundle.en = some e)
    (hw : env.writeOk = false) :
    (mainRun env).exitCode = 0 ∧
      (mainRun env).outputFile = env.prevOutput ∧
      (mainRun env).printedNotes =
        some (serializeNotes e
          (fallbackNote (generate_and_translate_notes env.rawResponse).bundle.ar e)
          (fallbackNote (generate_and_translate_notes env.rawResponse).bundle.tr e)) := by
  obtain ⟨hene, -⟩ := parse_bundle_shape _ _ hen
  unfold mainRun
  rw [if_neg hc, hst]
  simp [hen, hene, hw]

theorem write_failure_does_not_abort_spot :
    (mainRun ⟨[['a']], true, ("versionCode 7".toList),
      ("<en-US>hi</en-US>".toList), false, some ['z']⟩).exitCode = 0 ∧
    (mainRun ⟨[['a']], true, ("versionCode 7".toList),
      ("<en-US>hi</en-US>".toList), false, some ['z']⟩).outputFile = some ['z'] := by
  have h := write_failure_does_not_abort
    ⟨[['a']], true, ("versionCode 7".toList), ("<en-US>hi</en-US>".toList), false, some ['z']⟩
    ("versionCode 8".toList) 8 (['h', 'i']) (by decide) (by decide) (by decide) rfl
  exact ⟨h.1, h.2.1⟩

/-- C10: for every run whose raw response yields a valid bundle, if a
translation language's tags are present but enclose only whitespace,
the parser stores the empty string for that language, the fallback
keeps it (it triggers only on absent keys, not on empty values, so the
English text is not substituted), and the serialized output written by
the run contains an empty block for that language. -/
theorem empty_translation_not_substituted (env : Env) (g : List Char) (v : Nat)
    (e : List Char)
    (hc : env.commits ≠ [])
    (hst : increment_version_code env.gradleExists env.gradleContent = StampResult.ok g v)
    (hen : (generate_and_translate_notes env.rawResponse).bundle.en = some e)
    (hw : env.writeOk = true) :
    (∀ s, extractTag arOpenTag arCloseTag env.rawResponse = some s → stripChars s = [] →
      (generate_and_translate_notes env.rawResponse).bundle.ar = some [] ∧
        fallbackNote (generate_and_translate_notes env.rawResponse).bundle.ar e = [] ∧
        fallbackNote (generate_and_translate_notes env.rawResponse).bundle.ar e ≠ e ∧
        (mainRun env).outputFile =
          some (serializeNotes e []
            (fallbackNote (generate_and_translate_notes env.rawResponse).bundle.tr e)) ∧
        ∃ u w, serializeNotes e []
            (fallbackNote (generate_and_translate_notes env.rawResponse).bundle.tr e) =
          u ++ (arOpenTag ++ ('\n' :: '\n' :: arCloseTag)) ++ w) ∧
    (∀ s, extractTag trOpenTag trCloseTag env.rawResponse = some s → stripChars s = [] →
      (generate_and_translate_notes env.rawResponse).bundle.tr = some [] ∧
        fallbackNote (generate_and_translate_notes env.rawResponse).bundle.tr e = [] ∧
        fallbackNote (generate_and_translate_notes env.rawResponse).bundle.tr e ≠ e ∧
        (mainRun env).outputFile =
          some (serializeNotes e
            (fallbackNote (generate_and_translate_notes env.rawResponse).bundle.ar e) []) ∧
        ∃ u w, serializeNotes e
            (fallbackNote (generate_and_translate_notes env.rawResponse).bundle.ar e) [] =
          u ++ (trOpenTag ++ ('\n' :: '\n' :: trCloseTag)) ++ w) := by
  obtain ⟨hene, hshape⟩ := parse_bundle_shape _ _ hen
  have hout : (mainRun env).outputFile =
      some (serializeNotes e
        (fallbackNote (generate_and_translate_notes env.rawResponse).bundle.ar e)
        (fallbackNote (generate_and_translate_notes env.rawResponse).bundle.tr e)) := by
    unfold mainRun
    rw [if_neg hc, hst]
    simp [hen, hene, hw]
  constructor
  · intro s hs hstrip
    have har : (generate_and_translate_notes env.rawResponse).bundle.ar = some [] := by
      rw [hshape]
      simp [hs, hstrip]
    have hfb : fallbackNote (generate_and_translate_notes env.rawResponse).bundle.ar e = [] := by
      rw [har]
      rfl
    refine ⟨har, hfb, ?_, ?_, ?_⟩
    · rw [hfb]
      exact fun hl => hene hl.symm
    · rw [← hfb]
      exact hout
    · refine ⟨enOpenTag ++ ['\n'] ++ e ++ ['\n'] ++ enCloseTag ++ ['\n'],
        ['\n'] ++ trOpenTag ++ ['\n'] ++
          fallbackNote (generate_and_translate_notes env.rawResponse).bundle.tr e ++
          ['\n'] ++ trCloseTag, ?_⟩
      rw [serializeNotes_eq]
      simp
  · intro s hs hstrip
    have htr : (generate_and_translate_notes env.rawResponse).bundle.tr = some [] := by
      rw [hshape]
      simp [hs, hstrip]
    have hfb : fallbackNote (generate_and_translate_notes env.rawResponse).bundle.tr e = [] := by
      rw [htr]
      rfl
    refine ⟨htr, hfb, ?_, ?_, ?_⟩
    · rw [hfb]
      exact fun hl => hene hl.symm
    · rw [← hfb]
      exact hout
    · refine ⟨enOpenTag ++ ['\n'] ++ e ++ ['\n'] ++ enCloseTag ++ ['\n'] ++
        arOpenTag ++ ['\n'] ++
        fallbackNote (generate_and_translate_notes env.rawResponse).bundle.ar e ++
        ['\n'] ++ arCloseTag ++ ['\n'], [], ?_⟩
      rw [serializeNotes_eq]
      simp

theorem empty_translation_not_substituted_spot :
    (generate_and_translate_notes
      ("<en-US>hi</en-US><ar> </ar><tr-TR>tk</tr-TR>".toList)).bundle.ar = some [] :=
  ((empty_translation_not_substituted
    ⟨[['a']], true, ("versionCode 7".toList),
      ("<en-US>hi</en-US><ar> </ar><tr-TR>tk</tr-TR>".toList), true, none⟩
    ("versionCode 8".toList) 8 (['h', 'i'])
    (by decide) (by decide) (by decide) rfl).1
    ([' ']) (by decide) (by decide)).1

end Relgen
